import Mathlib

/-!
Verification of the row-distribution and dialect logic of `splitcsv`.

The definitions below are a shallow embedding of `src/splitcsv.py`.
Rows of the source CSV file are modelled by an abstract type `ρ`
(the Python code passes each parsed row through unchanged), file paths
by `String`, and the output directory state by an association list
from paths to written file contents.  Components that the specification
describes but that are absent from `src/` (the RoundRobin distribution
policy and the Dialect Sniffer) are modelled from the specification's
words and are marked as such in their doc comments.
-/

namespace SplitCsv

/-! ## Decimal rendering of naturals

Python renders `f"{num}"` as the decimal representation of `num`.
`natDigits` is that decimal rendering (fuel-based so that it reduces
in the kernel); `digitsVal` is its left inverse, used to prove that
distinct numbers give distinct generated file names. -/

/-- Decimal digit character for a digit value below ten. -/
def digitChar (n : Nat) : Char :=
  if n = 0 then '0' else if n = 1 then '1' else if n = 2 then '2'
  else if n = 3 then '3' else if n = 4 then '4' else if n = 5 then '5'
  else if n = 6 then '6' else if n = 7 then '7' else if n = 8 then '8' else '9'

/-- Numeric value of a digit character. -/
def digitVal (c : Char) : Nat := c.toNat - 48

/-- Decimal digits of `n`, most significant first; `fuel` bounds the recursion. -/
def natDigitsAux : Nat → Nat → List Char
  | 0, _ => []
  | fuel + 1, n =>
    if n < 10 then [digitChar n]
    else natDigitsAux fuel (n / 10) ++ [digitChar (n % 10)]

/-- Decimal digit list of `n` (the characters of Python's `f"{n}"`). -/
def natDigits (n : Nat) : List Char := natDigitsAux (n + 1) n

/-- Decimal string of `n`, as interpolated by the Python f-string. -/
def natStr (n : Nat) : String := String.mk (natDigits n)

/-- Value of a digit-character list read as a decimal numeral. -/
def digitsVal (cs : List Char) : Nat := cs.foldl (fun a c => a * 10 + digitVal c) 0

/-! ## CSV line parsing and serialization (Python `csv` default dialect)

`split_csv` reads the header line with `csv.reader` and writes it back
with `csv.DictWriter` (delimiter `,`, quote character `"`, doublequote,
minimal quoting).  `parseCSVLine` is the reader's field splitting for a
single line and `fieldsToLine` is the writer's serialization of one row. -/

/-- Parser state of the `csv.reader` automaton. -/
inductive PState : Type
  | fieldStart
  | unquoted
  | quoted
  | afterQuote
  deriving DecidableEq

/-- One-line field splitting of Python's `csv.reader` (default dialect,
non-strict): quoted fields, doubled quotes as escapes, literal handling of
text following a closing quote. -/
def parseLoop : List Char → PState → List Char → List String → List String
  | [], _, cur, acc => acc ++ [String.mk cur]
  | c :: rest, PState.fieldStart, cur, acc =>
    if c = '"' then parseLoop rest PState.quoted cur acc
    else if c = ',' then parseLoop rest PState.fieldStart [] (acc ++ [String.mk cur])
    else parseLoop rest PState.unquoted (cur ++ [c]) acc
  | c :: rest, PState.unquoted, cur, acc =>
    if c = ',' then parseLoop rest PState.fieldStart [] (acc ++ [String.mk cur])
    else parseLoop rest PState.unquoted (cur ++ [c]) acc
  | c :: rest, PState.quoted, cur, acc =>
    if c = '"' then parseLoop rest PState.afterQuote cur acc
    else parseLoop rest PState.quoted (cur ++ [c]) acc
  | c :: rest, PState.afterQuote, cur, acc =>
    if c = '"' then parseLoop rest PState.quoted (cur ++ [c]) acc
    else if c = ',' then parseLoop rest PState.fieldStart [] (acc ++ [String.mk cur])
    else parseLoop rest PState.afterQuote (cur ++ [c]) acc

/-- Fields of one CSV line as parsed by `csv.reader` (an empty line parses
to an empty row, which the reader skips). -/
def parseCSVLine (s : String) : List String :=
  if s.data.isEmpty then [] else parseLoop s.data PState.fieldStart [] []

/-- The source CSV file as `split_csv` observes it: existence flag, the path
components used to build output names, the raw first line (the header), and
the parsed non-empty data rows after the header, in file order.  Both
`csv.reader` (which counts `file_length`) and `csv.DictReader` (which
streams the rows) skip blank rows, so a single row list models both. -/
structure Source (ρ : Type) : Type where
  isFile : Bool
  parent : String
  stem : String
  suffix : String
  headerLine : String
  rows : List ρ
  deriving DecidableEq

/-- An output file: the field names written by `DictWriter.writeheader`
followed by the data rows written into this file. -/
structure OutFile (ρ : Type) : Type where
  header : List String
  rows : List ρ
  deriving DecidableEq

/-- The output directory, as an association from paths to file contents. -/
abbrev FS (ρ : Type) : Type := List (String × OutFile ρ)

/-- Errors of `split_csv` (the Python code raises `AssertionError` for each;
names follow the specification's taxonomy, with `insufficientRows` for the
zero-quota failure at line 81 of the source). -/
inductive SplitError : Type
  | invalidSource
  | invalidDestination
  | invalidFilename
  | invalidSplitCount
  | insufficientRows
  deriving DecidableEq

/-- `filepath.open('w')` + write: create the path or overwrite it in place. -/
def fsWrite : FS ρ → String → OutFile ρ → FS ρ
  | [], p, v => [(p, v)]
  | (k, w) :: fs, p, v =>
    if k = p then (p, v) :: fs else (k, w) :: fsWrite fs p v

/-- Contents stored at a path, if the path exists. -/
def fsLookup : FS ρ → String → Option (OutFile ρ)
  | [], _ => none
  | (k, w) :: fs, p => if k = p then some w else fsLookup fs p

/-- The reserved filename characters checked at line 66 of the source. -/
def reservedChars : List Char := ['\\', '/', ':', '*', '?', '"', '<', '>', '|']

/-- A rename entry is rejected when it holds a reserved character or is the
token `null` (line 66 of the source). -/
def nameIsInvalid (nm : String) : Bool :=
  nm.data.any (fun c => reservedChars.contains c) || nm == "null"

/-- Generated file names `f"{csvfile.stem}{num}"` for `num` in
`range(1, splitnum + 1)` (line 60 of the source). -/
def genNames (stem : String) (n : Nat) : List String :=
  (List.range n).map (fun i => stem ++ natStr (i + 1))

/-- `Path(outdir).joinpath(f"{prefix}{filename}{csvfile.suffix}")`
(line 95 of the source). -/
def outPath (dir pfx nm sfx : String) : String :=
  dir ++ "/" ++ pfx ++ nm ++ sfx

/-- The sequence of file writes of the loop at lines 93-106: each file in
turn receives the next `quota` rows of the shared row iterator (headers are
written to every file).  When `quota = 0` the Python `break` condition
`row_split == row_num` never fires (`row_num` starts at 1), so the first
file would drain the whole stream; that case is unreachable behind the
`row_split > 0` assertion but is kept for faithfulness. -/
def writePlan (hdr : List String) (quota : Nat) :
    List String → List ρ → List (String × OutFile ρ)
  | [], _ => []
  | p :: ps, s =>
    if quota = 0 then (p, OutFile.mk hdr s) :: writePlan hdr quota ps []
    else (p, OutFile.mk hdr (s.take quota)) :: writePlan hdr quota ps (s.drop quota)

/-- Perform the planned writes, in order, against the directory state. -/
def runWrites (fs : FS ρ) (entries : List (String × OutFile ρ)) : FS ρ :=
  entries.foldl (fun a e => fsWrite a e.1 e.2) fs

/-- `row_split = int(file_length / splitnum)` (line 79 of the source):
floor division of the non-negative row count by the split count. -/
def quotaOf (src : Source ρ) (n : Nat) : Nat := src.rows.length / n

/-- The row stream fed to the write loop: the data rows, passed through the
run's `random.shuffle` outcome `shuffleFn` when shuffling was requested
(lines 89-90 of the source). -/
def streamOf (shuffle : Bool) (shuffleFn : List ρ → List ρ) (rows : List ρ) :
    List ρ :=
  if shuffle then shuffleFn rows else rows

/-- The body of `split_csv` after validation of source, destination and
names (lines 73-106 of the source): count the data rows, compute the
quota `int(file_length / splitnum)`, fail when it is zero, optionally
shuffle the row stream, then fill the output files in order. -/
def splitBody (src : Source ρ) (dir : String) (names : List String) (n : Nat)
    (pfx : String) (shuffle : Bool) (shuffleFn : List ρ → List ρ) (fs : FS ρ) :
    Except SplitError Unit × FS ρ :=
  if quotaOf src n = 0 then (Except.error SplitError.insufficientRows, fs)
  else
    (Except.ok (),
     runWrites fs
       (writePlan (parseCSVLine src.headerLine) (quotaOf src n)
         (names.map (fun nm => outPath dir pfx nm src.suffix))
         (streamOf shuffle shuffleFn src.rows)))

/-- Shallow embedding of `split_csv` (lines 20-107 of the source).
`shuffleFn` stands for `random.shuffle`: the one permutation it produces in
this run (theorems about shuffling hypothesize that it permutes its input).
The checks appear in the source's order: source file, output directory,
rename validation (which overrides `splitnum` by `len(rename)`), the
`splitnum >= 2` assertion, then the body.  `splitnum` is an `Int` because
the Python argument may be negative. -/
def split_csv (src : Source ρ) (outdir : Option String) (outdirIsDir : Bool)
    (splitnum : Int) (rename : Option (List String)) (pfx : String)
    (shuffle : Bool) (shuffleFn : List ρ → List ρ) (fs : FS ρ) :
    Except SplitError Unit × FS ρ :=
  if src.isFile = false then (Except.error SplitError.invalidSource, fs)
  else
    let dir := outdir.getD src.parent
    if outdirIsDir = false then (Except.error SplitError.invalidDestination, fs)
    else
      match rename with
      | none =>
        if splitnum < 2 then (Except.error SplitError.invalidSplitCount, fs)
        else
          splitBody src dir (genNames src.stem splitnum.toNat) splitnum.toNat
            pfx shuffle shuffleFn fs
      | some ns =>
        if ns.any nameIsInvalid then (Except.error SplitError.invalidFilename, fs)
        else if (ns.length : Int) < 2 then
          (Except.error SplitError.invalidSplitCount, fs)
        else splitBody src dir ns ns.length pfx shuffle shuffleFn fs

/-! ## Injectivity of the generated names -/

theorem digitVal_digitChar : ∀ d < 10, digitVal (digitChar d) = d := by decide

theorem digitsVal_append_singleton (l : List Char) (c : Char) :
    digitsVal (l ++ [c]) = digitsVal l * 10 + digitVal c := by
  simp [digitsVal, List.foldl_append]

theorem digitsVal_natDigitsAux :
    ∀ fuel n, n < fuel → digitsVal (natDigitsAux fuel n) = n := by
  intro fuel
  induction fuel with
  | zero => intro n hn; omega
  | succ fuel ih =>
    intro n hn
    by_cases h10 : n < 10
    · simp only [natDigitsAux, if_pos h10]
      have := digitVal_digitChar n h10
      simp [digitsVal, this]
    · simp only [natDigitsAux, if_neg h10]
      rw [digitsVal_append_singleton]
      have hdiv : n / 10 < fuel := by
        have : n / 10 < n := Nat.div_lt_self (by omega) (by omega)
        omega
      rw [ih (n / 10) hdiv, digitVal_digitChar (n % 10) (Nat.mod_lt n (by omega))]
      omega

theorem digitsVal_natDigits (n : Nat) : digitsVal (natDigits n) = n :=
  digitsVal_natDigitsAux (n + 1) n (Nat.lt_succ_self n)

theorem natDigits_injective : Function.Injective natDigits := by
  intro m n h
  have := digitsVal_natDigits m
  rw [h, digitsVal_natDigits] at this
  omega

theorem natStr_injective : Function.Injective natStr := by
  intro m n h
  exact natDigits_injective (congrArg String.data h)

theorem strAppend_left_cancel {a b c : String} (h : a ++ b = a ++ c) : b = c := by
  have hd : a.data ++ b.data = a.data ++ c.data := by
    rw [← String.data_append, ← String.data_append, h]
  exact String.ext (List.append_cancel_left hd)

theorem strAppend_right_cancel {a b c : String} (h : a ++ c = b ++ c) : a = b := by
  have hd : a.data ++ c.data = b.data ++ c.data := by
    rw [← String.data_append, ← String.data_append, h]
  exact String.ext (List.append_cancel_right hd)

theorem outPath_inj {dir pfx sfx nm nm' : String}
    (h : outPath dir pfx nm sfx = outPath dir pfx nm' sfx) : nm = nm' := by
  unfold outPath at h
  exact strAppend_left_cancel (strAppend_right_cancel h)

theorem genName_inj (stem : String) : ∀ i j : Nat,
    stem ++ natStr (i + 1) = stem ++ natStr (j + 1) → i = j := by
  intro i j h
  have := natStr_injective (strAppend_left_cancel h)
  omega

/-! ## Directory-state lemmas -/

theorem fsLookup_fsWrite (fs : FS ρ) (p x : String) (v : OutFile ρ) :
    fsLookup (fsWrite fs p v) x = if p = x then some v else fsLookup fs x := by
  induction fs with
  | nil => by_cases h : p = x <;> simp [fsWrite, fsLookup, h]
  | cons e fs ih =>
    obtain ⟨k, w⟩ := e
    by_cases hk : k = p
    · subst hk
      by_cases hx : k = x <;> simp [fsWrite, fsLookup, hx]
    · by_cases hx : k = x
      · subst hx
        have : ¬ p = k := fun h => hk h.symm
        simp [fsWrite, fsLookup, hk, this]
      · simp [fsWrite, fsLookup, hk, hx, ih]

theorem fsWrite_fresh (fs : FS ρ) (p : String) (v : OutFile ρ)
    (h : fsLookup fs p = none) : fsWrite fs p v = fs ++ [(p, v)] := by
  induction fs with
  | nil => simp [fsWrite]
  | cons e fs ih =>
    obtain ⟨k, w⟩ := e
    by_cases hk : k = p
    · simp [fsLookup, hk] at h
    · simp only [fsLookup, if_neg hk] at h
      simp [fsWrite, hk, ih h]

theorem fsLookup_append_of_none (fs gs : FS ρ) (p : String)
    (h : fsLookup fs p = none) : fsLookup (fs ++ gs) p = fsLookup gs p := by
  induction fs with
  | nil => simp
  | cons e fs ih =>
    obtain ⟨k, w⟩ := e
    by_cases hk : k = p
    · simp [fsLookup, hk] at h
    · simp only [fsLookup, if_neg hk] at h
      simp [fsLookup, hk, ih h]

theorem mem_fsWrite {fs : FS ρ} {p : String} {v : OutFile ρ} {e : String × OutFile ρ}
    (h : e ∈ fsWrite fs p v) : e = (p, v) ∨ e ∈ fs := by
  induction fs with
  | nil => simpa [fsWrite] using h
  | cons f fs ih =>
    obtain ⟨k, w⟩ := f
    by_cases hk : k = p
    · simp only [fsWrite, if_pos hk] at h
      rcases List.mem_cons.mp h with h' | h'
      · exact Or.inl h'
      · exact Or.inr (List.mem_cons_of_mem _ h')
    · simp only [fsWrite, if_neg hk] at h
      rcases List.mem_cons.mp h with h' | h'
      · exact Or.inr (by simp [h'])
      · rcases ih h' with h'' | h''
        · exact Or.inl h''
        · exact Or.inr (List.mem_cons_of_mem _ h'')

theorem mem_keys_fsWrite {fs : FS ρ} {p x : String} {v : OutFile ρ} :
    x ∈ (fsWrite fs p v).map Prod.fst ↔ x ∈ fs.map Prod.fst ∨ x = p := by
  induction fs with
  | nil => simp [fsWrite, eq_comm]
  | cons e fs ih =>
    obtain ⟨k, w⟩ := e
    by_cases hk : k = p
    · subst hk
      simp [fsWrite, eq_comm]
      tauto
    · simp only [fsWrite, if_neg hk, List.map_cons, List.mem_cons, ih]
      tauto

theorem nodupKeys_fsWrite {fs : FS ρ} {p : String} {v : OutFile ρ}
    (h : (fs.map Prod.fst).Nodup) : ((fsWrite fs p v).map Prod.fst).Nodup := by
  induction fs with
  | nil => simp [fsWrite]
  | cons e fs ih =>
    obtain ⟨k, w⟩ := e
    simp only [List.map_cons, List.nodup_cons] at h
    by_cases hk : k = p
    · subst hk
      simpa [fsWrite, List.nodup_cons] using h
    · simp only [fsWrite, if_neg hk, List.map_cons, List.nodup_cons]
      refine ⟨fun hc => ?_, ih h.2⟩
      rcases mem_keys_fsWrite.mp hc with hc | hc
      · exact h.1 hc
      · exact hk hc

theorem runWrites_nil (fs : FS ρ) : runWrites fs [] = fs := rfl

theorem runWrites_cons (fs : FS ρ) (e : String × OutFile ρ)
    (es : List (String × OutFile ρ)) :
    runWrites fs (e :: es) = runWrites (fsWrite fs e.1 e.2) es := rfl

theorem runWrites_append (fs : FS ρ) (es₁ es₂ : List (String × OutFile ρ)) :
    runWrites fs (es₁ ++ es₂) = runWrites (runWrites fs es₁) es₂ :=
  List.foldl_append _ _ es₁ es₂

theorem runWrites_fresh :
    ∀ (es : List (String × OutFile ρ)) (fs : FS ρ),
      (es.map Prod.fst).Nodup → (∀ p ∈ es.map Prod.fst, fsLookup fs p = none) →
      runWrites fs es = fs ++ es := by
  intro es
  induction es with
  | nil => intro fs _ _; simp [runWrites]
  | cons e es ih =>
    intro fs hnd hfresh
    obtain ⟨p, v⟩ := e
    simp only [List.map_cons, List.nodup_cons] at hnd
    rw [runWrites_cons]
    have hfp : fsLookup fs p = none := hfresh p (by simp)
    rw [fsWrite_fresh fs p v hfp]
    rw [ih (fs ++ [(p, v)]) hnd.2 ?_]
    · simp
    · intro x hx
      rw [fsLookup_append_of_none fs [(p, v)] x (hfresh x (by simp [hx]))]
      have hxp : ¬ p = x := fun h => hnd.1 (h ▸ hx)
      simp [fsLookup, hxp]

theorem fsLookup_runWrites_of_not_mem :
    ∀ (es : List (String × OutFile ρ)) (fs : FS ρ) (p : String),
      p ∉ es.map Prod.fst → fsLookup (runWrites fs es) p = fsLookup fs p := by
  intro es
  induction es with
  | nil => intro fs p _; rfl
  | cons e es ih =>
    intro fs p hp
    obtain ⟨k, v⟩ := e
    simp only [List.map_cons, List.mem_cons, not_or] at hp
    rw [runWrites_cons, ih _ _ hp.2, fsLookup_fsWrite]
    have : ¬ k = p := fun h => hp.1 h.symm
    simp [this]

theorem mem_runWrites :
    ∀ (es : List (String × OutFile ρ)) (fs : FS ρ) (e : String × OutFile ρ),
      e ∈ runWrites fs es → e ∈ fs ∨ e ∈ es := by
  intro es
  induction es with
  | nil => intro fs e h; exact Or.inl h
  | cons f es ih =>
    intro fs e h
    obtain ⟨k, v⟩ := f
    rw [runWrites_cons] at h
    rcases ih _ _ h with h' | h'
    · rcases mem_fsWrite h' with h'' | h''
      · exact Or.inr (by simp [h''])
      · exact Or.inl h''
    · exact Or.inr (List.mem_cons_of_mem _ h')

theorem mem_keys_runWrites :
    ∀ (es : List (String × OutFile ρ)) (fs : FS ρ) (x : String),
      x ∈ (runWrites fs es).map Prod.fst ↔
        x ∈ fs.map Prod.fst ∨ x ∈ es.map Prod.fst := by
  intro es
  induction es with
  | nil => intro fs x; simp [runWrites]
  | cons e es ih =>
    intro fs x
    obtain ⟨k, v⟩ := e
    rw [runWrites_cons, ih]
    simp only [mem_keys_fsWrite, List.map_cons, List.mem_cons]
    tauto

theorem nodupKeys_runWrites :
    ∀ (es : List (String × OutFile ρ)) (fs : FS ρ),
      (fs.map Prod.fst).Nodup → ((runWrites fs es).map Prod.fst).Nodup := by
  intro es
  induction es with
  | nil => intro fs h; exact h
  | cons e es ih =>
    intro fs h
    rw [runWrites_cons]
    exact ih _ (nodupKeys_fsWrite h)

theorem fsLookup_of_mem_nodupKeys :
    ∀ (fs : FS ρ) (e : String × OutFile ρ),
      (fs.map Prod.fst).Nodup → e ∈ fs → fsLookup fs e.1 = some e.2 := by
  intro fs
  induction fs with
  | nil => intro e _ h; simp at h
  | cons f fs ih =>
    intro e hnd hmem
    obtain ⟨k, v⟩ := f
    simp only [List.map_cons, List.nodup_cons] at hnd
    rcases List.mem_cons.mp hmem with h | h
    · subst h; simp [fsLookup]
    · have hk : ¬ k = e.1 := by
        intro hk
        exact hnd.1 (hk ▸ List.mem_map_of_mem Prod.fst h)
      simp only [fsLookup, if_neg hk]
      exact ih e hnd.2 h

/-! ## Write-plan lemmas -/

theorem writePlan_cons {quota : Nat} (hq : quota ≠ 0) (hdr : List String)
    (p : String) (ps : List String) (s : List ρ) :
    writePlan hdr quota (p :: ps) s =
      (p, OutFile.mk hdr (s.take quota)) :: writePlan hdr quota ps (s.drop quota) := by
  simp [writePlan, hq]

theorem writePlan_keys (hdr : List String) (quota : Nat) :
    ∀ (ps : List String) (s : List ρ),
      (writePlan hdr quota ps s).map Prod.fst = ps := by
  intro ps
  induction ps with
  | nil => intro s; rfl
  | cons p ps ih =>
    intro s
    by_cases hq : quota = 0
    · subst hq; simp [writePlan, ih]
    · simp [writePlan, hq, ih]

theorem writePlan_length (hdr : List String) (quota : Nat) (ps : List String)
    (s : List ρ) : (writePlan hdr quota ps s).length = ps.length := by
  have := congrArg List.length (writePlan_keys hdr quota ps s)
  simpa using this

theorem writePlan_map_range {quota : Nat} (hq : quota ≠ 0) (hdr : List String) :
    ∀ (n : Nat) (g : Nat → String) (s : List ρ),
      writePlan hdr quota ((List.range n).map g) s =
        (List.range n).map (fun i =>
          (g i, OutFile.mk hdr ((s.drop (i * quota)).take quota))) := by
  intro n
  induction n with
  | zero => intro g s; rfl
  | succ n ih =>
    intro g s
    rw [List.range_succ_eq_map]
    simp only [List.map_cons, List.map_map]
    rw [writePlan_cons hq]
    rw [show (List.range n).map (g ∘ Nat.succ) = (List.range n).map (fun i => g (i + 1)) from by
      apply List.map_congr_left; intro i _; simp [Nat.succ_eq_add_one]]
    rw [ih (fun i => g (i + 1)) (s.drop quota)]
    simp only [Nat.zero_mul, List.drop_zero]
    congr 1
    apply List.map_congr_left
    intro i _
    simp only [Function.comp, Nat.succ_eq_add_one]
    rw [List.drop_drop]
    have harith : quota + i * quota = (i + 1) * quota := by ring
    rw [harith]

theorem writePlan_append {quota : Nat} (hq : quota ≠ 0) (hdr : List String) :
    ∀ (ps₁ ps₂ : List String) (s : List ρ),
      writePlan hdr quota (ps₁ ++ ps₂) s =
        writePlan hdr quota ps₁ s ++
          writePlan hdr quota ps₂ (s.drop (ps₁.length * quota)) := by
  intro ps₁
  induction ps₁ with
  | nil => intro ps₂ s; simp [writePlan]
  | cons p ps ih =>
    intro ps₂ s
    rw [List.cons_append, writePlan_cons hq, writePlan_cons hq, ih]
    rw [List.drop_drop]
    have harith : quota + ps.length * quota = (p :: ps).length * quota := by
      simp only [List.length_cons]
      ring
    rw [harith]
    simp

theorem mem_writePlan {quota : Nat} (hq : quota ≠ 0) (hdr : List String) :
    ∀ (ps : List String) (s : List ρ) (e : String × OutFile ρ),
      e ∈ writePlan hdr quota ps s →
      ∃ k, k < ps.length ∧
        e = (ps.getD k "", OutFile.mk hdr ((s.drop (k * quota)).take quota)) := by
  intro ps
  induction ps with
  | nil => intro s e h; simp [writePlan] at h
  | cons p ps ih =>
    intro s e h
    rw [writePlan_cons hq] at h
    rcases List.mem_cons.mp h with h' | h'
    · exact ⟨0, by simp, by simpa using h'⟩
    · obtain ⟨k, hk, he⟩ := ih (s.drop quota) e h'
      refine ⟨k + 1, by simpa using Nat.succ_lt_succ hk, ?_⟩
      rw [he]
      simp only [List.getD_cons_succ]
      rw [List.drop_drop]
      congr 3
      ring

/-! ## Chunk arithmetic -/

theorem join_range_chunks (q : Nat) :
    ∀ (n : Nat) (s : List ρ),
      ((List.range n).map (fun i => (s.drop (i * q)).take q)).flatten = s.take (n * q) := by
  intro n
  induction n with
  | zero => intro s; simp
  | succ n ih =>
    intro s
    rw [List.range_succ, List.map_append, List.flatten_append]
    rw [ih s]
    simp only [List.map_cons, List.map_nil, List.flatten_cons, List.flatten_nil,
      List.append_nil]
    rw [← List.take_add]
    have harith : n * q + q = (n + 1) * q := by ring
    rw [harith]

/-! ## Evaluation lemmas for `split_csv` -/

theorem streamOf_length {sf : List ρ → List ρ} {rows : List ρ} (sh : Bool)
    (hp : (sf rows).Perm rows) : (streamOf sh sf rows).length = rows.length := by
  cases sh
  · rfl
  · simpa [streamOf] using hp.length_eq

theorem split_csv_none_eval (src : Source ρ) (outdir : Option String) (sn : Int)
    (pfx : String) (sh : Bool) (sf : List ρ → List ρ) (fs : FS ρ)
    (hfile : src.isFile = true) (h2 : 2 ≤ sn) (hq : quotaOf src sn.toNat ≠ 0) :
    split_csv src outdir true sn none pfx sh sf fs =
      (Except.ok (),
       runWrites fs
         (writePlan (parseCSVLine src.headerLine) (quotaOf src sn.toNat)
           ((genNames src.stem sn.toNat).map
             (fun nm => outPath (outdir.getD src.parent) pfx nm src.suffix))
           (streamOf sh sf src.rows))) := by
  have hnot2 : ¬ sn < 2 := not_lt.mpr h2
  simp [split_csv, splitBody, hfile, hnot2, hq]

theorem split_csv_rename_eval (src : Source ρ) (outdir : Option String) (sn : Int)
    (ns : List String) (pfx : String) (sh : Bool) (sf : List ρ → List ρ) (fs : FS ρ)
    (hfile : src.isFile = true) (hvalid : ns.any nameIsInvalid = false)
    (h2 : 2 ≤ ns.length) (hq : quotaOf src ns.length ≠ 0) :
    split_csv src outdir true sn (some ns) pfx sh sf fs =
      (Except.ok (),
       runWrites fs
         (writePlan (parseCSVLine src.headerLine) (quotaOf src ns.length)
           (ns.map (fun nm => outPath (outdir.getD src.parent) pfx nm src.suffix))
           (streamOf sh sf src.rows))) := by
  have hnot2 : ¬ (ns.length : Int) < 2 := by
    rw [not_lt]
    exact_mod_cast h2
  simp [split_csv, splitBody, hfile, hvalid, hnot2, hq]

/-- The output state of a default-named run, in explicit indexed form:
entry `i` is the `i`-th generated path holding the `i`-th consecutive
quota-sized block of the stream. -/
theorem splitNone_fs_eq (src : Source ρ) (outdir : Option String) (sn : Int)
    (pfx : String) (sh : Bool) (sf : List ρ → List ρ)
    (hfile : src.isFile = true) (h2 : 2 ≤ sn)
    (hq : 0 < quotaOf src sn.toNat) :
    (split_csv src outdir true sn none pfx sh sf []).2 =
      (List.range sn.toNat).map (fun i =>
        (outPath (outdir.getD src.parent) pfx (src.stem ++ natStr (i + 1)) src.suffix,
         OutFile.mk (parseCSVLine src.headerLine)
           (((streamOf sh sf src.rows).drop (i * quotaOf src sn.toNat)).take
             (quotaOf src sn.toNat)))) := by
  have hqne : quotaOf src sn.toNat ≠ 0 := Nat.pos_iff_ne_zero.mp hq
  have heval := split_csv_none_eval src outdir sn pfx sh sf [] hfile h2 hqne
  set n := sn.toNat with hn
  set q := quotaOf src sn.toNat with hqdef
  set stream := streamOf sh sf src.rows with hstream
  set dir := outdir.getD src.parent with hdir
  have hpaths : (genNames src.stem n).map
      (fun nm => outPath dir pfx nm src.suffix) =
      (List.range n).map (fun i => outPath dir pfx (src.stem ++ natStr (i + 1)) src.suffix) := by
    simp [genNames, List.map_map, Function.comp]
  have hplan : writePlan (parseCSVLine src.headerLine) q
      ((genNames src.stem n).map (fun nm => outPath dir pfx nm src.suffix)) stream =
      (List.range n).map (fun i =>
        (outPath dir pfx (src.stem ++ natStr (i + 1)) src.suffix,
         OutFile.mk (parseCSVLine src.headerLine) ((stream.drop (i * q)).take q))) := by
    rw [hpaths]
    exact writePlan_map_range hqne (parseCSVLine src.headerLine) n _ stream
  have hginj : Function.Injective
      (fun i : Nat => outPath dir pfx (src.stem ++ natStr (i + 1)) src.suffix) :=
    fun i j h => genName_inj src.stem i j (outPath_inj h)
  have hkeysnd : (((List.range n).map (fun i =>
      (outPath dir pfx (src.stem ++ natStr (i + 1)) src.suffix,
       OutFile.mk (parseCSVLine src.headerLine)
         ((stream.drop (i * q)).take q)))).map Prod.fst).Nodup := by
    rw [List.map_map]
    exact (List.nodup_range n).map hginj
  rw [heval]
  simp only [hplan]
  rw [runWrites_fresh _ [] hkeysnd (fun p _ => rfl)]
  simp

/-- Every quota-sized block taken by a run with enough rows has exactly
`quota` elements. -/
theorem block_length_eq (src : Source ρ) (sh : Bool) (sf : List ρ → List ρ)
    {n : Nat} (hp : (sf src.rows).Perm src.rows) {i : Nat} (hi : i < n) :
    (((streamOf sh sf src.rows).drop (i * quotaOf src n)).take
      (quotaOf src n)).length = quotaOf src n := by
  have hstreamlen : (streamOf sh sf src.rows).length = src.rows.length :=
    streamOf_length sh hp
  have hmul : quotaOf src n * n ≤ src.rows.length :=
    Nat.div_mul_le_self src.rows.length n
  have h1 : (i + 1) * quotaOf src n ≤ n * quotaOf src n :=
    Nat.mul_le_mul_right _ (Nat.succ_le_of_lt hi)
  have h2' : n * quotaOf src n = quotaOf src n * n := Nat.mul_comm _ _
  have h3 : i * quotaOf src n + quotaOf src n ≤ src.rows.length := by
    have : (i + 1) * quotaOf src n = i * quotaOf src n + quotaOf src n := by ring
    omega
  simp only [List.length_take, List.length_drop, hstreamlen]
  omega

/-- C1: for a valid source with `T` data rows and `splitnum = N ≥ 2` with
`floor(T/N) > 0`, `split_csv` writes exactly `N` output files; output `i`
receives the consecutive block of rows `i*quota .. i*quota+quota-1` of the
(possibly shuffled) stream, each output has exactly `quota = floor(T/N)`
data rows, the total written is `N * quota`, and the rows beyond
`N * quota` (the tail of the stream) appear in no output. -/
theorem c1_quota_split (src : Source ρ) (outdir : Option String) (sn : Int)
    (pfx : String) (sh : Bool) (sf : List ρ → List ρ)
    (hfile : src.isFile = true) (h2 : 2 ≤ sn)
    (hq : 0 < quotaOf src sn.toNat)
    (hp : (sf src.rows).Perm src.rows) :
    (split_csv src outdir true sn none pfx sh sf []).1 = Except.ok () ∧
    (split_csv src outdir true sn none pfx sh sf []).2 =
      (List.range sn.toNat).map (fun i =>
        (outPath (outdir.getD src.parent) pfx (src.stem ++ natStr (i + 1)) src.suffix,
         OutFile.mk (parseCSVLine src.headerLine)
           (((streamOf sh sf src.rows).drop (i * quotaOf src sn.toNat)).take
             (quotaOf src sn.toNat)))) ∧
    (split_csv src outdir true sn none pfx sh sf []).2.length = sn.toNat ∧
    (∀ e ∈ (split_csv src outdir true sn none pfx sh sf []).2,
        e.2.rows.length = quotaOf src sn.toNat) ∧
    ((split_csv src outdir true sn none pfx sh sf []).2.map
        (fun e => e.2.rows)).flatten =
      (streamOf sh sf src.rows).take (sn.toNat * quotaOf src sn.toNat) ∧
    ((split_csv src outdir true sn none pfx sh sf []).2.map
        (fun e => e.2.rows.length)).sum = sn.toNat * quotaOf src sn.toNat := by
  have hqne : quotaOf src sn.toNat ≠ 0 := Nat.pos_iff_ne_zero.mp hq
  have heval := split_csv_none_eval src outdir sn pfx sh sf [] hfile h2 hqne
  have hfs2 := splitNone_fs_eq src outdir sn pfx sh sf hfile h2 hq
  set n := sn.toNat with hn
  set q := quotaOf src sn.toNat with hqdef
  set stream := streamOf sh sf src.rows with hstream
  set dir := outdir.getD src.parent with hdir
  have hblocklen : ∀ i, i < n → ((stream.drop (i * q)).take q).length = q :=
    fun i hi => block_length_eq src sh sf hp hi
  refine ⟨?_, hfs2, ?_, ?_, ?_, ?_⟩
  · rw [heval]
  · rw [hfs2]; simp
  · intro e he
    rw [hfs2] at he
    obtain ⟨i, hi, hF⟩ := List.mem_map.mp he
    have hi' : i < n := List.mem_range.mp hi
    rw [← hF]
    exact hblocklen i hi'
  · rw [hfs2, List.map_map]
    have : ((fun e : String × OutFile ρ => e.2.rows) ∘ (fun i =>
        (outPath dir pfx (src.stem ++ natStr (i + 1)) src.suffix,
         OutFile.mk (parseCSVLine src.headerLine) ((stream.drop (i * q)).take q)))) =
        fun i => (stream.drop (i * q)).take q := rfl
    rw [this]
    exact join_range_chunks q n stream
  · rw [hfs2, List.map_map]
    have hmem : ∀ b ∈ ((List.range n).map ((fun e : String × OutFile ρ => e.2.rows.length) ∘
        (fun i => (outPath dir pfx (src.stem ++ natStr (i + 1)) src.suffix,
          OutFile.mk (parseCSVLine src.headerLine) ((stream.drop (i * q)).take q))))),
        b = q := by
      intro b hb
      obtain ⟨i, hi, hF⟩ := List.mem_map.mp hb
      have hi' : i < n := List.mem_range.mp hi
      rw [← hF]
      exact hblocklen i hi'
    have hrep := List.eq_replicate_of_mem hmem
    have hlen : ((List.range n).map ((fun e : String × OutFile ρ => e.2.rows.length) ∘
        (fun i => (outPath dir pfx (src.stem ++ natStr (i + 1)) src.suffix,
          OutFile.mk (parseCSVLine src.headerLine)
            ((stream.drop (i * q)).take q))))).length = n := by simp
    rw [hlen] at hrep
    rw [hrep]
    simp [List.sum_replicate, smul_eq_mul]

/-- Witness for C1 at a concrete input: a 4-row source split in two, each
output receiving exactly 2 consecutive rows. -/
theorem c1_quota_split_witness :
    (0 : Nat) < quotaOf (Source.mk true "d" "f" ".csv" "h1,h2" [0, 1, 2, 3]) 2 ∧
    (split_csv (Source.mk true "d" "f" ".csv" "h1,h2" [0, 1, 2, 3]) none true 2 none
        "" false id []).1 = Except.ok () :=
  ⟨by decide,
   (c1_quota_split (Source.mk true "d" "f" ".csv" "h1,h2" [0, 1, 2, 3]) none 2 "" false id
      rfl (by decide) (by decide) (List.Perm.refl _)).1⟩

theorem split_csv_none_insufficient (src : Source ρ) (outdir : Option String)
    (sn : Int) (pfx : String) (sh : Bool) (sf : List ρ → List ρ) (fs : FS ρ)
    (hfile : src.isFile = true) (h2 : 2 ≤ sn) (hq : quotaOf src sn.toNat = 0) :
    split_csv src outdir true sn none pfx sh sf fs =
      (Except.error SplitError.insufficientRows, fs) := by
  have hnot2 : ¬ sn < 2 := not_lt.mpr h2
  simp [split_csv, splitBody, hfile, hnot2, hq]

/-- C3: with a valid source, destination and a requested split count
`N ≥ 2`, the default-named run fails with the zero-quota error
(`InsufficientRows`, the assertion at line 81) exactly when
`floor(T/N) = 0`, i.e. when `T < N`; it succeeds exactly when `N ≤ T`,
and when `T = N` every output file holds exactly one data row. -/
theorem c3_split_count_edge (src : Source ρ) (outdir : Option String) (sn : Int)
    (pfx : String) (sh : Bool) (sf : List ρ → List ρ)
    (hfile : src.isFile = true) (h2 : 2 ≤ sn)
    (hp : (sf src.rows).Perm src.rows) :
    ((split_csv src outdir true sn none pfx sh sf []).1 =
        Except.error SplitError.insufficientRows ↔
      src.rows.length < sn.toNat) ∧
    ((split_csv src outdir true sn none pfx sh sf []).1 = Except.ok () ↔
      sn.toNat ≤ src.rows.length) ∧
    (src.rows.length = sn.toNat →
      ∀ e ∈ (split_csv src outdir true sn none pfx sh sf []).2,
        e.2.rows.length = 1) := by
  have hnpos : 0 < sn.toNat := by omega
  have hzero : quotaOf src sn.toNat = 0 ↔ src.rows.length < sn.toNat :=
    Nat.div_eq_zero_iff hnpos
  by_cases hq : quotaOf src sn.toNat = 0
  · have heval := split_csv_none_insufficient src outdir sn pfx sh sf [] hfile h2 hq
    refine ⟨?_, ?_, ?_⟩
    · rw [heval]
      exact ⟨fun _ => hzero.mp hq, fun _ => rfl⟩
    · rw [heval]
      exact iff_of_false (by simp) (not_le.mpr (hzero.mp hq))
    · intro hT
      exfalso
      have := hzero.mp hq
      omega
  · have hqpos : 0 < quotaOf src sn.toNat := Nat.pos_of_ne_zero hq
    have heval := split_csv_none_eval src outdir sn pfx sh sf [] hfile h2 hq
    have hTn : ¬ src.rows.length < sn.toNat := fun h => hq (hzero.mpr h)
    refine ⟨?_, ?_, ?_⟩
    · rw [heval]
      exact iff_of_false (by simp) hTn
    · rw [heval]
      exact iff_of_true rfl (not_lt.mp hTn)
    · intro hT e he
      have hq1 : quotaOf src sn.toNat = 1 := by
        unfold quotaOf
        rw [hT]
        exact Nat.div_self hnpos
      rw [splitNone_fs_eq src outdir sn pfx sh sf hfile h2 hqpos] at he
      obtain ⟨i, hi, hF⟩ := List.mem_map.mp he
      have hi' : i < sn.toNat := List.mem_range.mp hi
      rw [← hF]
      have := block_length_eq src sh sf hp hi'
      simpa [hq1] using this

/-- Witness for C3: a 3-row source with `splitnum = 4` fails with the
zero-quota error. -/
theorem c3_split_count_edge_witness :
    (split_csv (Source.mk true "d" "f" ".csv" "h" ([0, 1, 2] : List Nat))
        none true 4 none "" false id []).1 =
      Except.error SplitError.insufficientRows :=
  ((c3_split_count_edge (Source.mk true "d" "f" ".csv" "h" ([0, 1, 2] : List Nat))
      none 4 "" false id rfl (by decide) (List.Perm.refl _)).1).mpr (by decide)

/-- C6: when any explicit rename entry holds a reserved filesystem
character or is the token `null`, the run fails with `InvalidFilename`
and the output directory is untouched (no file opened). -/
theorem c6_invalid_filename (src : Source ρ) (outdir : Option String) (sn : Int)
    (ns : List String) (pfx : String) (sh : Bool) (sf : List ρ → List ρ) (fs : FS ρ)
    (hfile : src.isFile = true) (hinv : ns.any nameIsInvalid = true) :
    split_csv src outdir true sn (some ns) pfx sh sf fs =
      (Except.error SplitError.invalidFilename, fs) := by
  simp [split_csv, hfile, hinv]

/-- Witness for C6: both `rename=['a','null']` and a name holding `<`
fail validation; the state is unchanged on the first of these. -/
theorem c6_invalid_filename_witness :
    (["a", "null"].any nameIsInvalid = true) ∧
    (nameIsInvalid "b<c" = true) ∧
    split_csv (Source.mk true "d" "f" ".csv" "h" ([0, 1] : List Nat)) none true 2
        (some ["a", "null"]) "" false id [] =
      (Except.error SplitError.invalidFilename, []) :=
  ⟨by decide, by decide,
   c6_invalid_filename (Source.mk true "d" "f" ".csv" "h" ([0, 1] : List Nat))
     none 2 ["a", "null"] "" false id [] rfl (by decide)⟩

/-- C7: every error of the taxonomy is raised during validation, before
any write: whenever `split_csv` returns an error, the directory state is
exactly the state it was given (no output file created or overwritten). -/
theorem c7_fail_fast (src : Source ρ) (outdir : Option String) (odir : Bool)
    (sn : Int) (rename : Option (List String)) (pfx : String) (sh : Bool)
    (sf : List ρ → List ρ) (fs : FS ρ) (e : SplitError)
    (herr : (split_csv src outdir odir sn rename pfx sh sf fs).1 = Except.error e) :
    (split_csv src outdir odir sn rename pfx sh sf fs).2 = fs := by
  by_cases h1 : src.isFile = false
  · simp [split_csv, h1]
  · have hfile : src.isFile = true := by revert h1; cases src.isFile <;> simp
    by_cases h2 : odir = false
    · simp [split_csv, h1, h2]
    · have hodir : odir = true := by revert h2; cases odir <;> simp
      subst hodir
      rcases rename with _ | ns
      · by_cases h3 : sn < 2
        · simp [split_csv, h1, h3]
        · by_cases h4 : quotaOf src sn.toNat = 0
          · rw [split_csv_none_insufficient src outdir sn pfx sh sf fs hfile
              (not_lt.mp h3) h4]
          · rw [split_csv_none_eval src outdir sn pfx sh sf fs hfile
              (not_lt.mp h3) h4] at herr
            simp at herr
      · by_cases h3 : ns.any nameIsInvalid = true
        · simp [split_csv, h1, h3]
        · have hval : ns.any nameIsInvalid = false := by
            revert h3; cases ns.any nameIsInvalid <;> simp
          by_cases h4 : (ns.length : Int) < 2
          · simp [split_csv, h1, hval, h4]
          · have h2n : 2 ≤ ns.length := by exact_mod_cast not_lt.mp h4
            by_cases h5 : quotaOf src ns.length = 0
            · have hnot2 : ¬ (ns.length : Int) < 2 := h4
              simp [split_csv, splitBody, h1, hval, hnot2, h5]
            · rw [split_csv_rename_eval src outdir sn ns pfx sh sf fs hfile hval
                h2n h5] at herr
              simp at herr

/-- Witness for C7: an invalid split count leaves a pre-existing directory
state untouched. -/
theorem c7_fail_fast_witness :
    ((split_csv (Source.mk true "d" "f" ".csv" "h" ([0, 1] : List Nat)) none true 1
        none "" false id [("x", OutFile.mk ["h"] [5])]).1 =
      Except.error SplitError.invalidSplitCount) ∧
    (split_csv (Source.mk true "d" "f" ".csv" "h" ([0, 1] : List Nat)) none true 1
        none "" false id [("x", OutFile.mk ["h"] [5])]).2 =
      [("x", OutFile.mk ["h"] [5])] :=
  ⟨rfl,
   c7_fail_fast (Source.mk true "d" "f" ".csv" "h" ([0, 1] : List Nat)) none true 1
     none "" false id [("x", OutFile.mk ["h"] [5])] SplitError.invalidSplitCount rfl⟩

/-- C9: with an explicit rename list, every output file is created at
`outdir` joined with `prefix ++ name ++ source-extension` — the same
shape used for generated names, so supplied names are never used verbatim
as full filenames. -/
theorem c9_rename_paths (src : Source ρ) (outdir : Option String) (sn : Int)
    (ns : List String) (pfx : String) (sh : Bool) (sf : List ρ → List ρ)
    (hfile : src.isFile = true) (hvalid : ns.any nameIsInvalid = false)
    (h2 : 2 ≤ ns.length) (hq : quotaOf src ns.length ≠ 0) (hnd : ns.Nodup) :
    ((split_csv src outdir true sn (some ns) pfx sh sf []).2).map Prod.fst =
      ns.map (fun nm =>
        outdir.getD src.parent ++ "/" ++ pfx ++ nm ++ src.suffix) := by
  have heval := split_csv_rename_eval src outdir sn ns pfx sh sf [] hfile hvalid h2 hq
  have hpinj : Function.Injective
      (fun nm => outPath (outdir.getD src.parent) pfx nm src.suffix) :=
    fun a b h => outPath_inj h
  have hkeys := writePlan_keys (parseCSVLine src.headerLine)
    (quotaOf src ns.length)
    (ns.map (fun nm => outPath (outdir.getD src.parent) pfx nm src.suffix))
    (streamOf sh sf src.rows) (ρ := ρ)
  have hknd : ((writePlan (parseCSVLine src.headerLine) (quotaOf src ns.length)
      (ns.map (fun nm => outPath (outdir.getD src.parent) pfx nm src.suffix))
      (streamOf sh sf src.rows) (ρ := ρ)).map Prod.fst).Nodup := by
    rw [hkeys]
    exact hnd.map hpinj
  rw [heval]
  rw [runWrites_fresh _ [] hknd (fun p _ => rfl)]
  simpa [outPath] using hkeys

/-- Witness for C9: `rename=['a','b']` with prefix `p_` and a `.csv`
source produces paths `d/p_a.csv` and `d/p_b.csv`. -/
theorem c9_rename_paths_witness :
    (quotaOf (Source.mk true "d" "f" ".csv" "h" ([0, 1] : List Nat)) 2 ≠ 0) ∧
    ((split_csv (Source.mk true "d" "f" ".csv" "h" ([0, 1] : List Nat)) none true 2
        (some ["a", "b"]) "p_" false id []).2).map Prod.fst =
      ["d/p_a.csv", "d/p_b.csv"] :=
  ⟨by decide,
   (c9_rename_paths (Source.mk true "d" "f" ".csv" "h" ([0, 1] : List Nat)) none 2
      ["a", "b"] "p_" false id rfl (by decide) (by decide) (by decide)
      (by decide)).trans (by decide)⟩

/-- C4 counterexample: with 3 data rows, `splitnum=2` and shuffling
enabled (here the run's permutation is reversal), the run succeeds but
writes only 2 of the 3 rows — the multiset of written rows is not the
multiset of source rows, refuting the claim as stated. -/
theorem c4_counterexample :
    (split_csv (Source.mk true "d" "f" ".csv" "h" ([0, 1, 2] : List Nat)) none true 2
        none "" true (fun l => l.reverse) []).1 = Except.ok () ∧
    (List.reverse ([0, 1, 2] : List Nat)).Perm [0, 1, 2] ∧
    ¬ (((split_csv (Source.mk true "d" "f" ".csv" "h" ([0, 1, 2] : List Nat)) none
          true 2 none "" true (fun l => l.reverse) []).2.map
            (fun e => e.2.rows)).flatten).Perm [0, 1, 2] :=
  ⟨rfl, by decide, by decide⟩

/-- C4 amended: with shuffle enabled, the rows written across all outputs
are a sub-multiset of the source's data rows (the first `N*floor(T/N)`
rows of the shuffled stream — nothing fabricated or duplicated); exactly
`T - T mod N` rows are written, i.e. the `T mod N` remainder rows are
discarded; and the written multiset equals the source multiset exactly
when `N` divides `T`. -/
theorem c4_shuffle_submultiset (src : Source ρ) (outdir : Option String)
    (sn : Int) (pfx : String) (sf : List ρ → List ρ)
    (hfile : src.isFile = true) (h2 : 2 ≤ sn)
    (hq : 0 < quotaOf src sn.toNat)
    (hp : (sf src.rows).Perm src.rows) :
    List.Subperm
      (((split_csv src outdir true sn none pfx true sf []).2.map
          (fun e => e.2.rows)).flatten)
      src.rows ∧
    (((split_csv src outdir true sn none pfx true sf []).2.map
        (fun e => e.2.rows)).flatten).length =
      src.rows.length - src.rows.length % sn.toNat ∧
    ((((split_csv src outdir true sn none pfx true sf []).2.map
        (fun e => e.2.rows)).flatten).Perm src.rows ↔
      sn.toNat ∣ src.rows.length) := by
  have hfs2 := splitNone_fs_eq src outdir sn pfx true sf hfile h2 hq
  have hflat : ((split_csv src outdir true sn none pfx true sf []).2.map
      (fun e => e.2.rows)).flatten =
      (streamOf true sf src.rows).take (sn.toNat * quotaOf src sn.toNat) := by
    rw [hfs2, List.map_map]
    exact join_range_chunks (quotaOf src sn.toNat) sn.toNat (streamOf true sf src.rows)
  have hstream : streamOf true sf src.rows = sf src.rows := rfl
  have hdm : sn.toNat * (src.rows.length / sn.toNat) + src.rows.length % sn.toNat =
      src.rows.length := Nat.div_add_mod src.rows.length sn.toNat
  have hquota : quotaOf src sn.toNat = src.rows.length / sn.toNat := rfl
  have hwlen : (((split_csv src outdir true sn none pfx true sf []).2.map
      (fun e => e.2.rows)).flatten).length =
      src.rows.length - src.rows.length % sn.toNat := by
    rw [hflat, hstream, List.length_take, hp.length_eq, hquota]
    omega
  refine ⟨?_, hwlen, ?_, ?_⟩
  · rw [hflat, hstream]
    exact ((List.take_sublist _ _).subperm).trans hp.subperm
  · -- a full permutation forces the remainder to be zero
    intro hperm
    have hlen := hperm.length_eq
    rw [hwlen] at hlen
    have hmodle : src.rows.length % sn.toNat ≤ src.rows.length :=
      Nat.mod_le _ _
    have hmod0 : src.rows.length % sn.toNat = 0 := by omega
    exact Nat.dvd_of_mod_eq_zero hmod0
  · intro hdvd
    have hmul : sn.toNat * quotaOf src sn.toNat = src.rows.length :=
      Nat.mul_div_cancel' hdvd
    rw [hflat, hstream, hmul]
    have hlen : src.rows.length = (sf src.rows).length := hp.length_eq.symm
    rw [hlen, List.take_length]
    exact hp

/-- Witness for the amended C4: 4 rows reversed and split in two are
written in full, a permutation of the source rows. -/
theorem c4_shuffle_submultiset_witness :
    0 < quotaOf (Source.mk true "d" "f" ".csv" "h" ([0, 1, 2, 3] : List Nat)) 2 ∧
    (((split_csv (Source.mk true "d" "f" ".csv" "h" ([0, 1, 2, 3] : List Nat)) none
        true 2 none "" true (fun l => l.reverse) []).2.map
          (fun e => e.2.rows)).flatten).Perm [0, 1, 2, 3] :=
  ⟨by decide,
   (c4_shuffle_submultiset (Source.mk true "d" "f" ".csv" "h"
      ([0, 1, 2, 3] : List Nat)) none 2 "" (fun l => l.reverse) rfl (by decide)
      (by decide) (by decide)).2.2.mpr (by decide)⟩

/-- Modelled from the spec: the RoundRobin distribution policy of
section 4.2 ("for each data row in stream order write it to
`outputs[row_index mod num_outputs]`") has no code under `src/`; this
definition renders the spec's words — output `j` receives, in stream
order, exactly the rows whose index `i` satisfies `i mod n = j`. -/
def roundRobin (rows : List ρ) (n : Nat) : List (List ρ) :=
  (List.range n).map (fun j =>
    (rows.enum.filter (fun e => e.1 % n = j)).map Prod.snd)

theorem countP_range_mod (n : Nat) (hn : 0 < n) {j : Nat} (hjn : j < n) :
    ∀ T : Nat, (List.range T).countP (fun i => i % n = j) =
      T / n + if j < T % n then 1 else 0 := by
  intro T
  induction T with
  | zero => simp [Nat.zero_div, Nat.zero_mod]
  | succ T ih =>
    rw [List.range_succ, List.countP_append, ih]
    have hr : T % n < n := Nat.mod_lt T hn
    have hT : n * (T / n) + T % n = T := Nat.div_add_mod T n
    have hdiv : (T + 1) / n = T / n + (T % n + 1) / n := by
      have h1 : T + 1 = (T % n + 1) + n * (T / n) := by omega
      rw [h1, Nat.add_mul_div_left _ _ hn]
      omega
    have hmod : (T + 1) % n = (T % n + 1) % n := by
      have h1 : T + 1 = (T % n + 1) + n * (T / n) := by omega
      rw [h1, Nat.add_mul_mod_self_left]
    have hsing : List.countP (fun i => i % n = j) [T] =
        if T % n = j then 1 else 0 := by
      by_cases hj : T % n = j <;> simp [List.countP_cons, hj]
    rw [hsing]
    by_cases hcase : T % n + 1 = n
    · have hd1 : (T % n + 1) / n = 1 := by rw [hcase]; exact Nat.div_self hn
      have hm0 : (T + 1) % n = 0 := by rw [hmod, hcase, Nat.mod_self]
      rw [hdiv, hd1, hm0]
      split_ifs <;> omega
    · have hlt : T % n + 1 < n := by omega
      have hd0 : (T % n + 1) / n = 0 := Nat.div_eq_of_lt hlt
      have hm : (T + 1) % n = T % n + 1 := by
        rw [hmod]
        exact Nat.mod_eq_of_lt hlt
      rw [hdiv, hd0, hm]
      split_ifs <;> omega

theorem sum_map_ite_lt : ∀ (n r : Nat),
    ((List.range n).map (fun j => if j < r then 1 else 0)).sum = min r n := by
  intro n r
  induction n with
  | zero => simp
  | succ n ih =>
    rw [List.range_succ, List.map_append, List.sum_append, ih]
    by_cases h : n < r <;> simp [h] <;> omega

theorem sum_map_add_distrib (u v : Nat → Nat) :
    ∀ l : List Nat, (l.map (fun x => u x + v x)).sum = (l.map u).sum + (l.map v).sum := by
  intro l
  induction l with
  | nil => rfl
  | cons a l ih => simp [ih]; omega

theorem roundRobin_getD (rows : List ρ) (n : Nat) {j : Nat} (hj : j < n) :
    (roundRobin rows n).getD j [] =
      (rows.enum.filter (fun e => e.1 % n = j)).map Prod.snd := by
  unfold roundRobin
  simp [List.getD, List.getElem?_map, List.getElem?_range, hj]

theorem roundRobin_count (rows : List ρ) (n : Nat) (hn : 0 < n) {j : Nat}
    (hj : j < n) :
    ((roundRobin rows n).getD j []).length =
      rows.length / n + if j < rows.length % n then 1 else 0 := by
  rw [roundRobin_getD rows n hj, List.length_map, ← List.countP_eq_length_filter]
  have hmap : (List.range rows.length).countP (fun i => i % n = j) =
      rows.enum.countP (fun e => e.1 % n = j) := by
    rw [← List.enum_map_fst rows, List.countP_map]
    rfl
  rw [← hmap, countP_range_mod n hn hj rows.length]

/-- C2 (spec-modelled): under the RoundRobin policy every data row is
written (the per-output counts sum to `T`, nothing discarded), row `i`
goes to output `i mod n`, and any two output sizes differ by at most 1. -/
theorem c2_round_robin (rows : List ρ) (n : Nat) (hn : 0 < n) :
    (((roundRobin rows n).map List.length).sum = rows.length) ∧
    (∀ i (hi : i < rows.length),
        rows.get ⟨i, hi⟩ ∈ (roundRobin rows n).getD (i % n) []) ∧
    (∀ j k, j < n → k < n →
        ((roundRobin rows n).getD j []).length ≤
          ((roundRobin rows n).getD k []).length + 1) := by
  refine ⟨?_, ?_, ?_⟩
  · unfold roundRobin
    rw [List.map_map]
    have hcongr : (List.range n).map (List.length ∘ (fun j =>
        (rows.enum.filter (fun e => e.1 % n = j)).map Prod.snd)) =
        (List.range n).map (fun j =>
          rows.length / n + if j < rows.length % n then 1 else 0) := by
      apply List.map_congr_left
      intro j hj
      have hj' : j < n := List.mem_range.mp hj
      have := roundRobin_count rows n hn hj'
      rw [roundRobin_getD rows n hj'] at this
      simpa using this
    rw [hcongr, sum_map_add_distrib (fun _ => rows.length / n)
      (fun j => if j < rows.length % n then 1 else 0) (List.range n)]
    have hconst : ((List.range n).map (fun _ => rows.length / n)).sum =
        n * (rows.length / n) := by
      rw [List.map_const']
      simp [List.sum_replicate, smul_eq_mul]
    rw [hconst, sum_map_ite_lt n (rows.length % n)]
    have hmin : min (rows.length % n) n = rows.length % n :=
      Nat.min_eq_left (Nat.le_of_lt (Nat.mod_lt _ hn))
    rw [hmin]
    exact Nat.div_add_mod rows.length n
  · intro i hi
    have hin : i % n < n := Nat.mod_lt i hn
    rw [roundRobin_getD rows n hin]
    apply List.mem_map.mpr
    refine ⟨(i, rows.get ⟨i, hi⟩), ?_, rfl⟩
    apply List.mem_filter.mpr
    constructor
    · have hlen : i < rows.enum.length := by simpa using hi
      have hget := List.getElem_enum rows i hlen
      have hmem := List.getElem_mem hlen
      rw [hget] at hmem
      have : rows[i] = rows.get ⟨i, hi⟩ := by simp [List.get_eq_getElem]
      rw [this] at hmem
      exact hmem
    · simp
  · intro j k hj hk
    rw [roundRobin_count rows n hn hj, roundRobin_count rows n hn hk]
    by_cases h1 : j < rows.length % n <;> by_cases h2 : k < rows.length % n <;>
      simp [h1, h2] <;> omega

/-- Witness for C2: three rows over two outputs distribute 2 and 1,
summing to 3. -/
theorem c2_round_robin_witness :
    (0 : Nat) < 2 ∧
    ((roundRobin ([10, 20, 30] : List Nat) 2).map List.length).sum = 3 :=
  ⟨by decide, (c2_round_robin ([10, 20, 30] : List Nat) 2 (by decide)).1⟩

/-! ## Dialect sniffer (spec-modelled) -/

/-- Modelled from the spec: the Dialect value of section 3 (the sniffer
and its dialect have no code under `src/`). -/
structure Dialect : Type where
  delimiter : Char
  quote_char : Char
  has_header : Bool
  deriving DecidableEq

/-- Modelled from the spec: the sniffing failure of section 4.1. -/
inductive SniffError : Type
  | ambiguousDialect
  deriving DecidableEq

/-- Modelled from the spec: candidate delimiters in the fixed preference
order named by section 4.1 (comma before tab before semicolon). -/
def candidateDelims : List Char := [',', '\t', ';']

/-- Occurrences of a candidate delimiter in one sampled line. -/
def countIn (line : String) (c : Char) : Nat :=
  line.data.countP (fun d => d = c)

/-- Modelled from the spec: a delimiter is accepted when it occurs with
the same non-zero count in every sampled line (section 4.1). -/
def consistentDelim (sample : List String) (c : Char) : Bool :=
  match sample with
  | [] => false
  | l :: ls =>
    decide (countIn l c ≠ 0) && ls.all (fun m => countIn m c = countIn l c)

/-- A field whose characters are all digits (a data-like pattern). -/
def looksNumeric (s : String) : Bool :=
  !s.data.isEmpty && s.data.all Char.isDigit

/-- Modelled from the spec: header detection of section 4.1 — the first
row is judged a header when some column is non-numeric in the first row
while numeric in every subsequent sampled row. -/
def detectHeader (sample : List String) (d : Char) : Bool :=
  match sample with
  | [] => false
  | l :: ls =>
    let firstFields := l.splitOn (String.mk [d])
    let restFields := ls.map (fun m => m.splitOn (String.mk [d]))
    (List.range firstFields.length).any (fun i =>
      !looksNumeric (firstFields.getD i "") &&
        restFields.all (fun fs => looksNumeric (fs.getD i "")))

/-- Modelled from the spec: the Dialect Sniffer of section 4.1 — infer
the delimiter from the sample's consistency statistics (first consistent
candidate in preference order), fix the default quote character, judge
header presence, and fail with `AmbiguousDialect` instead of guessing
when no candidate is consistent. -/
def sniff (sample : List String) : Except SniffError Dialect :=
  match candidateDelims.find? (fun c => consistentDelim sample c) with
  | none => Except.error SniffError.ambiguousDialect
  | some d => Except.ok (Dialect.mk d '"' (detectHeader sample d))

theorem consistentDelim_iff (l : String) (ls : List String) (c : Char) :
    consistentDelim (l :: ls) c = true ↔
      ∃ k, 0 < k ∧ ∀ m ∈ l :: ls, countIn m c = k := by
  simp only [consistentDelim, Bool.and_eq_true, decide_eq_true_eq,
    List.all_eq_true, decide_eq_true_eq]
  constructor
  · rintro ⟨h0, hall⟩
    refine ⟨countIn l c, Nat.pos_of_ne_zero h0, ?_⟩
    intro m hm
    rcases List.mem_cons.mp hm with h | h
    · rw [h]
    · exact hall m h
  · rintro ⟨k, hk, hall⟩
    have hl : countIn l c = k := hall l (List.mem_cons_self l ls)
    constructor
    · omega
    · intro m hm
      rw [hall m (List.mem_cons_of_mem l hm), hl]

/-- C8 (spec-modelled): the sniffer fails with `AmbiguousDialect` exactly
when no candidate delimiter occurs with one and the same non-zero count
in every sampled line — it never guesses a dialect on such input. -/
theorem c8_sniffer_ambiguous (sample : List String) (hne : sample ≠ []) :
    sniff sample = Except.error SniffError.ambiguousDialect ↔
      ∀ c ∈ candidateDelims, ¬ ∃ k, 0 < k ∧ ∀ l ∈ sample, countIn l c = k := by
  rcases sample with _ | ⟨l, ls⟩
  · exact absurd rfl hne
  · constructor
    · intro herr c hc hex
      have hcons : consistentDelim (l :: ls) c = true :=
        (consistentDelim_iff l ls c).mpr hex
      rcases hf : candidateDelims.find? (fun c => consistentDelim (l :: ls) c) with
        _ | d
      · exact List.find?_eq_none.mp hf c hc hcons
      · have hok : sniff (l :: ls) =
            Except.ok (Dialect.mk d '"' (detectHeader (l :: ls) d)) := by
          unfold sniff
          rw [hf]
        rw [hok] at herr
        exact absurd herr (by simp)
    · intro hall
      rcases hf : candidateDelims.find? (fun c => consistentDelim (l :: ls) c) with
        _ | d
      · unfold sniff
        rw [hf]
      · exact absurd ((consistentDelim_iff l ls d).mp (List.find?_some hf))
          (hall d (List.mem_of_find?_eq_some hf))

/-- Witness for C8: the sample `a,b` / `c` has comma counts 1 and 0 and
no other candidate present, so the sniffer reports ambiguity rather than
guessing; in particular no constant positive comma count exists. -/
theorem c8_sniffer_ambiguous_witness :
    sniff ["a,b", "c"] = Except.error SniffError.ambiguousDialect ∧
    ¬ ∃ k, 0 < k ∧ ∀ l ∈ ["a,b", "c"], countIn l ',' = k :=
  ⟨rfl,
   (c8_sniffer_ambiguous ["a,b", "c"] (by decide)).mp rfl ',' (by decide)⟩

/-! ## Duplicate rename names (C10) -/

/-- A rename list holding the name `nm` at two positions, the second being
its last occurrence. -/
def dupList (l₁ : List String) (nm : String) (l₂ l₃ : List String) : List String :=
  l₁ ++ nm :: l₂ ++ nm :: l₃

theorem dedup_length_lt {α : Type u_1} [DecidableEq α] {l : List α}
    (h : ¬ l.Nodup) : l.dedup.length < l.length := by
  have hs := List.dedup_sublist l
  have hle := hs.length_le
  rcases Nat.lt_or_ge l.dedup.length l.length with h1 | h1
  · exact h1
  · exact absurd (List.dedup_eq_self.mp (hs.eq_of_length (Nat.le_antisymm hle h1))) h

theorem getD_append_cons {α : Type u_1} :
    ∀ (A : List α) (b : α) (C : List α) (d : α),
      (A ++ b :: C).getD A.length d = b := by
  intro A
  induction A with
  | nil => intro b C d; rfl
  | cons a A ih => intro b C d; simpa using ih b C d

/-- C10 counterexample: rows `[0,0,0,0]`, `rename=['a','a']`.  The earlier
quota block (the first two rows, `[0,0]`) equals the final contents of the
single output file, so it does appear in an output file, refuting the
claim's "the earlier block exists in no output file" as stated. -/
theorem c10_counterexample :
    (split_csv (Source.mk true "d" "f" ".csv" "h" ([0, 0, 0, 0] : List Nat)) none
        true 0 (some ["a", "a"]) "" false id []).1 = Except.ok () ∧
    (split_csv (Source.mk true "d" "f" ".csv" "h" ([0, 0, 0, 0] : List Nat)) none
        true 0 (some ["a", "a"]) "" false id []).2.map (fun e => e.2.rows) =
      [[0, 0]] ∧
    ([0, 0, 0, 0] : List Nat).take 2 = [0, 0] :=
  ⟨rfl, by decide, rfl⟩

/-- C10 amended: a rename list with a duplicated (otherwise valid) name
passes validation; the run succeeds, the duplicated path finally holds
exactly the quota block of the name's last occurrence (each earlier
occurrence was overwritten), fewer distinct files than `len(rename)`
result, and — provided the earlier occurrence's block differs from every
other block — the earlier block appears in no output file. -/
theorem c10_duplicate_rename_amended (src : Source ρ) (outdir : Option String)
    (sn : Int) (pfx : String) (sh : Bool) (sf : List ρ → List ρ)
    (l₁ l₂ l₃ : List String) (nm : String)
    (hfile : src.isFile = true) (hlast : nm ∉ l₃)
    (hvalid : (dupList l₁ nm l₂ l₃).any nameIsInvalid = false)
    (h2 : 2 ≤ (dupList l₁ nm l₂ l₃).length)
    (hq : quotaOf src (dupList l₁ nm l₂ l₃).length ≠ 0) :
    (split_csv src outdir true sn (some (dupList l₁ nm l₂ l₃)) pfx sh sf []).1 =
      Except.ok () ∧
    fsLookup (split_csv src outdir true sn (some (dupList l₁ nm l₂ l₃)) pfx sh sf
        []).2 (outPath (outdir.getD src.parent) pfx nm src.suffix) =
      some (OutFile.mk (parseCSVLine src.headerLine)
        (((streamOf sh sf src.rows).drop ((l₁.length + 1 + l₂.length) *
            quotaOf src (dupList l₁ nm l₂ l₃).length)).take
          (quotaOf src (dupList l₁ nm l₂ l₃).length))) ∧
    (split_csv src outdir true sn (some (dupList l₁ nm l₂ l₃)) pfx sh sf
        []).2.length < (dupList l₁ nm l₂ l₃).length ∧
    ((∀ k, k < (dupList l₁ nm l₂ l₃).length → k ≠ l₁.length →
        ((streamOf sh sf src.rows).drop (k *
            quotaOf src (dupList l₁ nm l₂ l₃).length)).take
          (quotaOf src (dupList l₁ nm l₂ l₃).length) ≠
        ((streamOf sh sf src.rows).drop (l₁.length *
            quotaOf src (dupList l₁ nm l₂ l₃).length)).take
          (quotaOf src (dupList l₁ nm l₂ l₃).length)) →
      ((streamOf sh sf src.rows).drop (l₁.length *
          quotaOf src (dupList l₁ nm l₂ l₃).length)).take
        (quotaOf src (dupList l₁ nm l₂ l₃).length) ∉
        (split_csv src outdir true sn (some (dupList l₁ nm l₂ l₃)) pfx sh sf
          []).2.map (fun e => e.2.rows)) := by
  have heval := split_csv_rename_eval src outdir sn (dupList l₁ nm l₂ l₃) pfx sh sf
    [] hfile hvalid h2 hq
  set ns := dupList l₁ nm l₂ l₃ with hnsdef
  set q := quotaOf src ns.length with hqdef
  set dir := outdir.getD src.parent with hdirdef
  set stream := streamOf sh sf src.rows with hstreamdef
  set hdr := parseCSVLine src.headerLine with hhdrdef
  set pδ := outPath dir pfx nm src.suffix with hpd
  have hns : ns = l₁ ++ nm :: l₂ ++ nm :: l₃ := rfl
  have hps : ns.map (fun m => outPath dir pfx m src.suffix) =
      (l₁.map (fun m => outPath dir pfx m src.suffix)) ++ pδ ::
        ((l₂.map (fun m => outPath dir pfx m src.suffix)) ++ pδ ::
          (l₃.map (fun m => outPath dir pfx m src.suffix))) := by
    rw [hns]
    simp [dupList, List.map_append]
  have hlen1 : (l₁.map (fun m => outPath dir pfx m src.suffix)).length = l₁.length :=
    List.length_map _ _
  have hlen2 : (l₂.map (fun m => outPath dir pfx m src.suffix)).length = l₂.length :=
    List.length_map _ _
  have harith : l₁.length * q + q + l₂.length * q = (l₁.length + 1 + l₂.length) * q := by
    ring
  have hplan : writePlan hdr q (ns.map (fun m => outPath dir pfx m src.suffix)) stream =
      (writePlan hdr q (l₁.map (fun m => outPath dir pfx m src.suffix)) stream ++
        (pδ, OutFile.mk hdr ((stream.drop (l₁.length * q)).take q)) ::
          writePlan hdr q (l₂.map (fun m => outPath dir pfx m src.suffix))
            ((stream.drop (l₁.length * q)).drop q)) ++
        (pδ, OutFile.mk hdr
          ((stream.drop ((l₁.length + 1 + l₂.length) * q)).take q)) ::
          writePlan hdr q (l₃.map (fun m => outPath dir pfx m src.suffix))
            ((stream.drop ((l₁.length + 1 + l₂.length) * q)).drop q) := by
    rw [hps, writePlan_append hq hdr, writePlan_cons hq, hlen1,
      writePlan_append hq hdr, writePlan_cons hq, hlen2]
    rw [List.drop_drop, List.drop_drop]
    rw [show l₁.length * q + q = q + l₁.length * q from by ring] at harith ⊢
    rw [harith]
    simp [List.append_assoc]
  have hsplit2 : (split_csv src outdir true sn (some ns) pfx sh sf []).2 =
      runWrites [] (writePlan hdr q (ns.map (fun m => outPath dir pfx m src.suffix))
        stream) := by
    rw [heval]
  have hE3keys : pδ ∉ (writePlan hdr q
      (l₃.map (fun m => outPath dir pfx m src.suffix))
      ((stream.drop ((l₁.length + 1 + l₂.length) * q)).drop q)).map Prod.fst := by
    rw [writePlan_keys]
    intro hmem
    obtain ⟨m, hm, hpm⟩ := List.mem_map.mp hmem
    exact hlast (outPath_inj hpm ▸ hm)
  have hlookup : fsLookup
      (split_csv src outdir true sn (some ns) pfx sh sf []).2 pδ =
      some (OutFile.mk hdr
        ((stream.drop ((l₁.length + 1 + l₂.length) * q)).take q)) := by
    rw [hsplit2, hplan, runWrites_append]
    rw [runWrites_cons]
    rw [fsLookup_runWrites_of_not_mem _ _ _ hE3keys]
    rw [fsLookup_fsWrite]
    simp
  have hkeysnodup : (((split_csv src outdir true sn (some ns) pfx sh sf
      []).2).map Prod.fst).Nodup := by
    rw [hsplit2]
    exact nodupKeys_runWrites _ [] (by simp)
  refine ⟨?_, hlookup, ?_, ?_⟩
  · rw [heval]
  · -- fewer distinct files than rename entries
    have hmemkeys : ∀ x, x ∈ ((split_csv src outdir true sn (some ns) pfx sh sf
        []).2).map Prod.fst ↔
        x ∈ ns.map (fun m => outPath dir pfx m src.suffix) := by
      intro x
      rw [hsplit2, mem_keys_runWrites, writePlan_keys]
      simp
    have htf : (((split_csv src outdir true sn (some ns) pfx sh sf
        []).2).map Prod.fst).toFinset =
        (ns.map (fun m => outPath dir pfx m src.suffix)).toFinset := by
      apply Finset.ext
      intro x
      simp only [List.mem_toFinset]
      exact hmemkeys x
    have hcard1 := List.toFinset_card_of_nodup hkeysnodup
    have hcard2 := List.card_toFinset (ns.map (fun m => outPath dir pfx m src.suffix))
    have hnotnodup : ¬ (ns.map (fun m => outPath dir pfx m src.suffix)).Nodup := by
      intro hnd
      have hcount := List.nodup_iff_count_le_one.mp hnd pδ
      rw [hps] at hcount
      rw [List.count_append, List.count_cons, List.count_append, List.count_cons] at hcount
      simp at hcount
      omega
    have hdlt : (ns.map (fun m => outPath dir pfx m src.suffix)).dedup.length <
        (ns.map (fun m => outPath dir pfx m src.suffix)).length :=
      dedup_length_lt hnotnodup
    have hfslen : ((split_csv src outdir true sn (some ns) pfx sh sf
        []).2).length = (((split_csv src outdir true sn (some ns) pfx sh sf
        []).2).map Prod.fst).length := (List.length_map _ _).symm
    rw [hfslen, ← hcard1, htf, hcard2]
    calc (ns.map (fun m => outPath dir pfx m src.suffix)).dedup.length
        < (ns.map (fun m => outPath dir pfx m src.suffix)).length := hdlt
      _ = ns.length := List.length_map _ _
  · -- the earlier block, when distinct from every other block, is nowhere
    intro hdiff hmem
    obtain ⟨e, he, hrows⟩ := List.mem_map.mp hmem
    have he' : e ∈ writePlan hdr q
        (ns.map (fun m => outPath dir pfx m src.suffix)) stream := by
      rcases mem_runWrites _ _ _ (hsplit2 ▸ he) with h | h
      · simp at h
      · exact h
    obtain ⟨k, hk, hek⟩ := mem_writePlan hq hdr _ _ _ he'
    have hkn : k < ns.length := by
      rw [List.length_map] at hk
      exact hk
    have hrowsk : ((stream.drop (k * q)).take q) = ((stream.drop (l₁.length * q)).take q) := by
      rw [hek] at hrows
      exact hrows
    have hnslen : ns.length = l₁.length + 1 + l₂.length + 1 + l₃.length := by
      rw [hns]
      simp
      omega
    by_cases hki : k = l₁.length
    · -- the mention is the earlier occurrence itself: its path is the
      -- duplicated path, whose final contents are the later block
      have hgd : (ns.map (fun m => outPath dir pfx m src.suffix)).getD k "" = pδ := by
        subst hki
        rw [hps, ← hlen1]
        exact getD_append_cons _ _ _ _
      have he1 : e.1 = pδ := by rw [hek, hgd]
      have hlk := fsLookup_of_mem_nodupKeys _ e hkeysnodup he
      rw [he1, hlookup] at hlk
      have he2 : e.2 = OutFile.mk hdr
          ((stream.drop ((l₁.length + 1 + l₂.length) * q)).take q) := by
        injection hlk with hv
        exact hv.symm
      have hrows2 : e.2.rows = (stream.drop ((l₁.length + 1 + l₂.length) * q)).take q := by
        rw [he2]
      rw [hrows2] at hrows
      have hj0n : l₁.length + 1 + l₂.length < ns.length := by omega
      have hj0ne : l₁.length + 1 + l₂.length ≠ l₁.length := by omega
      exact hdiff (l₁.length + 1 + l₂.length) hj0n hj0ne hrows
    · exact hdiff k hkn hki hrowsk

/-- Witness for the amended C10: `rename=['a','a']` over 4 distinct rows —
validation passes, the single file `d/a.csv` holds the later block `[2,3]`,
1 file results instead of 2, and the earlier block `[0,1]` is in no file. -/
theorem c10_duplicate_rename_amended_witness :
    (split_csv (Source.mk true "d" "f" ".csv" "h" ([0, 1, 2, 3] : List Nat)) none
        true 0 (some (dupList [] "a" [] [])) "" false id []).1 = Except.ok () ∧
    fsLookup (split_csv (Source.mk true "d" "f" ".csv" "h" ([0, 1, 2, 3] : List Nat))
        none true 0 (some (dupList [] "a" [] [])) "" false id []).2 "d/a.csv" =
      some (OutFile.mk ["h"] [2, 3]) ∧
    (split_csv (Source.mk true "d" "f" ".csv" "h" ([0, 1, 2, 3] : List Nat)) none
        true 0 (some (dupList [] "a" [] [])) "" false id []).2.length < 2 ∧
    ([0, 1] : List Nat) ∉
      (split_csv (Source.mk true "d" "f" ".csv" "h" ([0, 1, 2, 3] : List Nat)) none
        true 0 (some (dupList [] "a" [] [])) "" false id []).2.map
        (fun e => e.2.rows) := by
  have h := c10_duplicate_rename_amended
    (Source.mk true "d" "f" ".csv" "h" ([0, 1, 2, 3] : List Nat)) none 0 "" false id
    [] [] [] "a" rfl (by decide) (by decide) (by decide) (by decide)
  exact ⟨h.1, h.2.1.trans (by decide), h.2.2.1, h.2.2.2 (by decide)⟩

end SplitCsv
